import Mathlib

/-!
Verification of the rueidis Redis client library against its
natural-language specification.

The `cmds` command-builder package (`internal/cmds/builder.go`) and the
`DedicatedSingleClient` facade are embedded directly from the source.
Subsystems whose code is not part of the repository snapshot (the wire
pipeline, the client-side cache, the cluster dispatcher, the pub/sub
receive loop, and the Redis server itself) are modelled from the
specification; each such definition carries a doc comment starting with
`Modelled from the spec:`.
-/

namespace Rueidis

/-! ## Command builder (`internal/cmds/builder.go`)

A Go `CommandSlice` wraps a `[]string`; we embed it as `List String`.
The `sync.Pool` of recycled slices is embedded as a stack of slices
(`List (List String)`): `Get` pops a slice or news an empty one, `Put`
pushes. The all-empty invariant proved below holds for any retrieval
order, so fixing a stack discipline loses no generality. -/

/-- Embeds `newCommandSlice`: a fresh `CommandSlice` has an empty
token list (`make([]string, 0, 2)`; capacity is not observable). -/
def newCommandSlice : List String := []

/-- Embeds `get()`: take a recycled slice from the pool, or a new one
when the pool is empty. Returns the slice and the remaining pool. -/
def poolGet : List (List String) → List String × List (List String)
  | [] => (newCommandSlice, [])
  | cs :: rest => (cs, rest)

/-- Embeds `Put(cs)`: truncate the slice to length zero
(`cs.s = cs.s[:0]`, embedded as `List.take 0`) and return it to the
pool. -/
def poolPut (p : List (List String)) (cs : List String) : List (List String) :=
  cs.take 0 :: p

/-- A pool operation: a client either recycles a slice with `Put` or
draws one with `get`. -/
inductive PoolOp where
  | put (cs : List String)
  | draw
deriving DecidableEq

/-- Runs a sequence of pool operations from a given pool state. -/
def runPool : List (List String) → List PoolOp → List (List String)
  | p, [] => p
  | p, PoolOp.put cs :: rest => runPool (poolPut p cs) rest
  | p, PoolOp.draw :: rest => runPool (poolGet p).2 rest

/-- Modelled from the spec: cluster key slots. `slot` hashes the
`{tag}`-aware key bytes with CRC16 and reduces mod 16384 (spec §4.5);
the `slot`, `check`, `InitSlot` and `NoSlot` definitions of the `cmds`
package are not in the snapshot. Slots proper lie in `[0, 16384)`; the
three sentinels below are distinct values outside that range:
`initSlot` marks a command with no key seen yet, `noSlot` marks a
builder that does not track slots (single-node clients), and
`crossSlot` marks a command whose keys hash to different slots. -/
def initSlot : Nat := 16384

/-- Modelled from the spec: sentinel for builders that do not track key
slots (commands explicitly allowed to mix slots). -/
def noSlot : Nat := 16385

/-- Modelled from the spec: sentinel recording that the keys of the
command hash to more than one slot. -/
def crossSlot : Nat := 16386

/-- Modelled from the spec: one step of the CRC16 (XMODEM, polynomial
0x1021) used by Redis cluster key hashing, absorbing one byte. -/
def crc16Byte (crc b : Nat) : Nat :=
  (List.range 8).foldl
    (fun c _ => if c &&& 32768 ≠ 0 then ((c <<< 1) ^^^ 4129) % 65536 else (c <<< 1) % 65536)
    ((crc ^^^ (b <<< 8)) % 65536)

/-- Modelled from the spec: CRC16 of a byte sequence, initial value 0. -/
def crc16 (bytes : List Nat) : Nat := bytes.foldl crc16Byte 0

/-- Modelled from the spec: the bytes after the first `\x7b` of the key,
if any. First half of the hash-tag extraction. -/
def afterBrace : List Char → Option (List Char)
  | [] => none
  | c :: rest => if c = Char.ofNat 123 then some rest else afterBrace rest

/-- Modelled from the spec: the bytes strictly before the first `\x7d`,
if any. Second half of the hash-tag extraction. -/
def untilBrace : List Char → Option (List Char)
  | [] => none
  | c :: rest => if c = Char.ofNat 125 then some [] else (untilBrace rest).map (c :: ·)

/-- Modelled from the spec: the hash-tag of a key. When the key contains
`\x7b` followed later by `\x7d` with a nonempty substring between them,
only that substring is hashed; otherwise the whole key is hashed. -/
def hashtag (s : List Char) : List Char :=
  match afterBrace s with
  | none => s
  | some rest =>
    match untilBrace rest with
    | none => s
    | some tag => if tag = [] then s else tag

/-- Modelled from the spec: the cluster slot of a key: CRC16 of the
hash-tag portion, reduced mod 16384. Keys are ASCII command tokens, so
`Char.toNat` gives the key bytes. -/
def slot (k : String) : Nat := crc16 ((hashtag k.data).map Char.toNat) % 16384

/-- Modelled from the spec: `check` folds a newly computed key slot into
the accumulated key slot of a command. The first key sets the slot; a
key hashing to a different slot than the accumulated one marks the
command cross-slot. -/
def check (prev new : Nat) : Nat :=
  if prev = initSlot ∨ prev = new then new else crossSlot

/-- Embeds `Builder`: carries the initial key-slot sentinel `ks`. -/
structure Builder where
  ks : Nat

/-- Embeds `NewBuilder(initSlot uint16)`. -/
def NewBuilder (s : Nat) : Builder := ⟨s⟩

/-- Embeds `Arbitrary` (and its underlying `Completed`): a command
under construction, with its token list `cs`, key slot `ks`, and
command flags `cf`. -/
structure Arbitrary where
  cs : List String
  ks : Nat
  cf : Nat

/-- Embeds `Completed`: a finished command. Same layout as
`Arbitrary` (`type Arbitrary Completed` in the source). -/
structure Completed where
  cs : List String
  ks : Nat
  cf : Nat

/-- Embeds `Builder.Arbitrary(token ...string)`: draw a `CommandSlice`
from the pool, seed it with the leading tokens, and take the builder's
key slot. Returns the command together with the remaining pool. -/
def Builder.Arbitrary (b : Builder) (p : List (List String)) (token : List String) :
    Rueidis.Arbitrary × List (List String) :=
  (⟨(poolGet p).1 ++ token, b.ks, 0⟩, (poolGet p).2)

/-- Embeds `Arbitrary.Keys(keys ...string)`: when the command tracks
slots (`ks ≠ NoSlot`), fold each key's slot into the accumulated slot
with `check`, then append the keys to the token list. -/
def Arbitrary.Keys (c : Arbitrary) (keys : List String) : Arbitrary :=
  { c with
    ks := if c.ks ≠ noSlot then keys.foldl (fun s k => check s (slot k)) c.ks else c.ks
    cs := c.cs ++ keys }

/-- Embeds `Arbitrary.Args(args ...string)`: append the non-key
arguments to the token list. -/
def Arbitrary.Args (c : Arbitrary) (args : List String) : Arbitrary :=
  { c with cs := c.cs ++ args }

/-- Embeds `Arbitrary.Build()`: the finished command. -/
def Arbitrary.Build (c : Arbitrary) : Completed := ⟨c.cs, c.ks, c.cf⟩

/-! ## Cluster dispatch (modelled) -/

/-- Modelled from the spec: the errors of the error taxonomy (§7)
relevant to the claims checked here. -/
inductive RErr where
  | crossSlot
  | closing
  | connBroken
deriving DecidableEq

/-- Modelled from the spec: cluster-router dispatch of a completed
command (§4.5, §7). A command whose keys hashed to different slots is
rejected with `ErrCrossSlot` and is not retried (`CrossSlot:
user-level misuse; no retry`); otherwise the command is sent to the
endpoint owning its slot. The first component lists the commands
actually sent on a wire (so an empty list witnesses that nothing was
sent and nothing retried). -/
def clusterDispatch (c : Completed) : List Completed × Option RErr :=
  if c.ks = crossSlot then ([], some RErr.crossSlot) else ([c], none)

/-! ## Client-side cache: hit/miss accounting (modelled)

Sequential model of `DoCache` hit/miss accounting over one wire with no
intervening writes. -/

/-- Modelled from the spec: the observable cache state for the hit-ratio
scenario: the set of keys currently cached (as a list, newest first)
and the running miss and hit counters. -/
structure CacheCount where
  cache : List Nat
  miss : Nat
  hit : Nat
deriving DecidableEq

/-- Modelled from the spec: one `DoCache(GET k, ttl)` call (§4.4). A
key with a live entry is answered from the cache (`cache_hit=true`);
otherwise the command goes to the server and the reply is cached
(`cache_hit=false`). -/
def doCacheCount (st : CacheCount) (k : Nat) : CacheCount :=
  if k ∈ st.cache then { st with hit := st.hit + 1 }
  else { cache := k :: st.cache, miss := st.miss + 1, hit := st.hit }

/-- Modelled from the spec: a sequence of `DoCache` calls starting from
an empty cache. -/
def runCacheCount (ks : List Nat) : CacheCount :=
  ks.foldl doCacheCount ⟨[], 0, 0⟩

/-! ## Client-side cache: single-flight state machine (modelled) -/

/-- Modelled from the spec: the state of a cache entry (§3): `Pending`
while its fetch is in flight (the flag records whether an invalidation
arrived while pending, in which case the eventual reply is delivered
to waiters but not cached), or `Ready` holding a live value. -/
inductive CEntry where
  | pending (invalidated : Bool)
  | ready
deriving DecidableEq

/-- Modelled from the spec: cache events on one wire. `request k f` is
a `DoCache` call for cache key `k` and fingerprint `f`; `reply k f` is
the server's reply to the in-flight fetch; `invalidate k` is a
server-push invalidation for key `k`; `invalidateAll` is the
null-payload flush-all invalidation; `expire k f` is the lazy discard
of an expired `Ready` entry. -/
inductive CEvent where
  | request (k f : Nat)
  | reply (k f : Nat)
  | invalidate (k : Nat)
  | invalidateAll
  | expire (k f : Nat)

/-- Modelled from the spec: cache state for the single-flight claim:
the entry table keyed by `(cache-key, fingerprint)` and, separately,
the count of outstanding server requests per `(cache-key,
fingerprint)` pair on this wire. -/
structure CacheSF where
  entries : Nat → Nat → Option CEntry
  inflight : Nat → Nat → Nat

/-- Modelled from the spec: the initial cache state: no entries, no
outstanding requests. -/
def initCacheSF : CacheSF := ⟨fun _ _ => none, fun _ _ => 0⟩

/-- Modelled from the spec: one cache transition (§4.4). A `request`
finding any existing entry joins it (a hit on `Ready`, a waiter on
`Pending`) and sends nothing; only a `request` finding no entry
creates a `Pending` entry and issues one server request. A `reply`
completes the pending fetch: the value is cached as `Ready` unless the
entry was invalidated while pending, in which case it is dropped.
Invalidation removes `Ready` entries and marks `Pending` entries
invalidated; expiry discards a `Ready` entry. -/
def stepCacheSF (st : CacheSF) : CEvent → CacheSF
  | CEvent.request k f =>
    match st.entries k f with
    | some _ => st
    | none =>
      { entries := fun k' f' => if k' = k ∧ f' = f then some (CEntry.pending false) else st.entries k' f'
        inflight := fun k' f' => if k' = k ∧ f' = f then st.inflight k' f' + 1 else st.inflight k' f' }
  | CEvent.reply k f =>
    match st.entries k f with
    | some (CEntry.pending inv) =>
      { entries := fun k' f' =>
          if k' = k ∧ f' = f then (if inv then none else some CEntry.ready) else st.entries k' f'
        inflight := fun k' f' => if k' = k ∧ f' = f then st.inflight k' f' - 1 else st.inflight k' f' }
    | _ => st
  | CEvent.invalidate k =>
    { st with
      entries := fun k' f' =>
        if k' = k then
          match st.entries k' f' with
          | some (CEntry.pending _) => some (CEntry.pending true)
          | _ => none
        else st.entries k' f' }
  | CEvent.invalidateAll =>
    { st with
      entries := fun k' f' =>
        match st.entries k' f' with
        | some (CEntry.pending _) => some (CEntry.pending true)
        | _ => none }
  | CEvent.expire k f =>
    match st.entries k f with
    | some CEntry.ready =>
      { st with entries := fun k' f' => if k' = k ∧ f' = f then none else st.entries k' f' }
    | _ => st

/-- Modelled from the spec: the cache state after a trace of events on
one wire, starting from the empty cache. -/
def runCacheSF (tr : List CEvent) : CacheSF :=
  tr.foldl stepCacheSF initCacheSF

/-- The single-flight coupling invariant: a pair `(k, f)` has exactly
one outstanding server request while its entry is `Pending` and none
otherwise. -/
def InvSF (st : CacheSF) : Prop :=
  ∀ k f, st.inflight k f =
    match st.entries k f with
    | some (CEntry.pending _) => 1
    | _ => 0

/-! ## Pipeline FIFO (modelled) -/

/-- Modelled from the spec: pipeline events on one wire: a caller
submits a command, or the reader completes the command at the head of
the in-flight FIFO (§4.2). -/
inductive PEvent where
  | submit
  | complete
deriving DecidableEq

/-- Modelled from the spec: the pipeline state: commands are numbered
by submission order (`nextId` is the next number), `queue` is the
in-flight FIFO, and `done` lists completed commands in the order their
completions were delivered. -/
structure PipeSt where
  nextId : Nat
  queue : List Nat
  done : List Nat
deriving DecidableEq

/-- Modelled from the spec: one pipeline transition. A submit appends
its entry to the FIFO tail (submit and write happen atomically
relative to other submits); a received non-push frame pops the FIFO
head and completes it. A completion with an empty FIFO cannot
happen and is a no-op in the model. -/
def stepPipe (st : PipeSt) : PEvent → PipeSt
  | PEvent.submit => ⟨st.nextId + 1, st.queue ++ [st.nextId], st.done⟩
  | PEvent.complete =>
    match st.queue with
    | [] => st
    | h :: t => ⟨st.nextId, t, st.done ++ [h]⟩

/-- Modelled from the spec: the pipeline state after a trace of events
on one wire. -/
def runPipe (tr : List PEvent) : PipeSt :=
  tr.foldl stepPipe ⟨0, [], []⟩

/-! ## FLUSHALL and flush-driven invalidation (modelled) -/

/-- Modelled from the spec: the joint state of the server keyspace and
this client's cache for the flush scenario: both map keys to an
optional value (for the cache, the cached reply for `GET k`). -/
structure FlushSt where
  server : Nat → Option Nat
  cache : Nat → Option Nat

/-- Modelled from the spec: `SET k v` on the server (the client's
tracking invalidation for a self-written key is immaterial here, so
the cache entry for `k` is dropped, the conservative reading). -/
def doSet (st : FlushSt) (k v : Nat) : FlushSt :=
  ⟨fun j => if j = k then some v else st.server j,
   fun j => if j = k then none else st.cache j⟩

/-- Modelled from the spec: `FLUSHALL` empties the server keyspace and
the server pushes a null-payload `invalidate`, which flushes every
entry of this connection's tracking scope from the client cache
(§4.4). -/
def doFlushall (_ : FlushSt) : FlushSt :=
  ⟨fun _ => none, fun _ => none⟩

/-- Modelled from the spec: `DoCache(GET k, ttl)` against the joint
state: a live cached entry is returned with `cache_hit=true`;
otherwise the server is asked and the reply (present or null) is
returned with `cache_hit=false` and a present reply is cached. The
first component is the reply and hit flag, the second the new state. -/
def doCacheGet (st : FlushSt) (k : Nat) : (Option Nat × Bool) × FlushSt :=
  match st.cache k with
  | some v => ((some v, true), st)
  | none =>
    ((st.server k, false),
     ⟨st.server, fun j => if j = k then st.server k else st.cache j⟩)

/-! ## Receive loop (modelled) -/

/-- Modelled from the spec: what the dedicated subscription wire of a
`Receive` call observes next: a pub/sub message frame, the client
being closed, or the connection breaking. -/
inductive REvent where
  | msg (m : String)
  | close
  | broken
deriving DecidableEq

/-- Modelled from the spec: the `Receive(ctx, subCmd, handler)` loop
(§4.7, §6): each message frame is pushed to the handler; the loop
terminates with `ErrClosing` when the client is shut down and with
`ErrConnBroken` when the connection breaks. Returns the messages
delivered to the handler and the terminal error (`none` while the
subscription is still live at the end of the observed trace). -/
def receiveRun : List REvent → List String → List String × Option RErr
  | [], out => (out, none)
  | REvent.msg m :: rest, out => receiveRun rest (out ++ [m])
  | REvent.close :: _, out => (out, some RErr.closing)
  | REvent.broken :: _, out => (out, some RErr.connBroken)

/-! ## Blocking ZADD / BZPOPMIN scenario (modelled) -/

/-- Modelled from the spec: one interleaving step of the blocking-zset
scenario: the producer performs the next `ZADD` or the consumer's
blocked `BZPOPMIN` is served. -/
inductive ZEv where
  | add
  | pop
deriving DecidableEq

/-- Modelled from the spec: the scenario state. The producer's `i`-th
`ZADD key i i` inserts score `i` with member the decimal string of
`i`; since member and score coincide numerically, `items` keeps the
multiset of scores present in the sorted set. `out` records each
`BZPOPMIN` reply as `[key, member, score]`. `ok` is false when a pop
was scheduled against an empty set, which the blocking semantics of
`BZPOPMIN key 0` forbids. -/
structure ZSt where
  adds : Nat
  pops : Nat
  items : List Nat
  out : List (String × String × String)
  ok : Bool

/-- Modelled from the spec: one scenario transition. A `ZADD` inserts
the next score; a `BZPOPMIN` removes the minimum score `m` and replies
`[key, m, m]` (Redis renders an integral score without a decimal
point). -/
def stepZ (key : String) (st : ZSt) : ZEv → ZSt
  | ZEv.add => { st with adds := st.adds + 1, items := st.items ++ [st.adds] }
  | ZEv.pop =>
    match st.items.min? with
    | none => { st with ok := false }
    | some m =>
      { st with
        pops := st.pops + 1
        items := st.items.erase m
        out := st.out ++ [(key, Nat.repr m, Nat.repr m)] }

/-- Modelled from the spec: the scenario state after an interleaving of
producer and consumer steps, starting from an empty sorted set. -/
def runZ (key : String) (sched : List ZEv) : ZSt :=
  sched.foldl (stepZ key) ⟨0, 0, [], [], true⟩

/-- The blocking-zset invariant: while no pop has been scheduled on an
empty set, the sorted set holds exactly the scores
`[pops, pops+1, …, adds-1]` and the replies so far are
`[key, i, i]` for `i = 0, …, pops-1` in ascending order. -/
def ZInv (key : String) (st : ZSt) : Prop :=
  st.ok = true →
    st.pops ≤ st.adds ∧
    st.items = List.range' st.pops (st.adds - st.pops) ∧
    st.out = (List.range st.pops).map (fun i => (key, Nat.repr i, Nat.repr i))

/-- Modelled from the spec: the number of producer steps in a
schedule. -/
def countAdds (sched : List ZEv) : Nat := (sched.filter (· = ZEv.add)).length

/-- Modelled from the spec: the number of consumer steps in a
schedule. -/
def countPops (sched : List ZEv) : Nat := (sched.filter (· = ZEv.pop)).length

/-! ## Dedicated client (`DedicatedSingleClient`) -/

/-- Modelled from the spec: a server reply as seen by the dedicated
client; its content is irrelevant to the frame-effect claim. -/
inductive RResult where
  | reply
deriving DecidableEq

/-- Modelled from the spec: the observable state of a dedicated wire:
the log of commands sent on it. -/
structure WireSt where
  sent : List Completed

/-- Modelled from the spec: `wire.DoMulti(multi...)` sends every
command on the dedicated wire and returns one reply per command in
order (§4.3; the wire implementation is not in the snapshot). -/
def wireDoMulti (w : WireSt) (multi : List Completed) : List RResult × WireSt :=
  (multi.map fun _ => RResult.reply, ⟨w.sent ++ multi⟩)

/-- Embeds `DedicatedSingleClient`: the builder's command-slice pool
and the dedicated wire it holds. -/
structure DedicatedSingleClient where
  pool : List (List String)
  wire : WireSt

/-- Embeds `DedicatedSingleClient.DoMulti(multi ...cmds.Completed)`:
with no commands it returns `nil` (embedded as `none`) at once;
otherwise it sends all commands on the wire and recycles each
command's slice into the pool, returning the replies. -/
def DedicatedSingleClient.DoMulti (c : DedicatedSingleClient) (multi : List Completed) :
    Option (List RResult) × DedicatedSingleClient :=
  if multi.length = 0 then (none, c)
  else
    (some (wireDoMulti c.wire multi).1,
     ⟨multi.foldl (fun p cmd => poolPut p cmd.cs) c.pool, (wireDoMulti c.wire multi).2⟩)

/-! ## Theorems -/

/-- Every slice sitting in a reachable pool state is empty. -/
theorem pool_all_empty (ops : List PoolOp) (p : List (List String))
    (hp : ∀ cs ∈ p, cs = []) : ∀ cs ∈ runPool p ops, cs = [] := by
  induction ops generalizing p with
  | nil => simpa [runPool] using hp
  | cons op rest ih =>
    cases op with
    | put cs0 =>
      simp only [runPool]
      refine ih (poolPut p cs0) ?_
      intro cs' h'
      rcases List.mem_cons.1 h' with h' | h'
      · simp [h']
      · exact hp cs' h'
    | draw =>
      simp only [runPool]
      refine ih (poolGet p).2 ?_
      cases p with
      | nil => intro cs h; simp [poolGet] at h
      | cons c tl => intro cs h; exact hp cs (List.mem_cons_of_mem _ h)

/-- Drawing from a pool whose slices are all empty yields an empty
slice. -/
theorem poolGet_empty (p : List (List String)) (hp : ∀ cs ∈ p, cs = []) :
    (poolGet p).1 = [] := by
  cases p with
  | nil => rfl
  | cons c tl => exact hp c (List.mem_cons_self c tl)

/-- C9: `Put` truncates a recycled `CommandSlice` to length zero, so
any slice obtained from any reachable pool state (reached by any
sequence of `Put`/`get` operations from the initial empty pool) has an
empty token list: a newly built command never starts with leftover
tokens. -/
theorem spec_c9_pool_slices_empty (ops : List PoolOp) :
    (poolGet (runPool [] ops)).1 = [] :=
  poolGet_empty _ (pool_all_empty ops [] (by intro cs h; simp at h))

/-- C8: for every reachable pool state and all token lists `t`, `k`,
`a`, the command built by `b.Arbitrary(t...).Keys(k...).Args(a...).Build()`
carries exactly the token sequence `t ++ k ++ a`: the builder only
appends tokens, never reorders or drops them. -/
theorem spec_c8_builder_concat (ops : List PoolOp) (b : Builder) (t k a : List String) :
    ((((b.Arbitrary (runPool [] ops) t).1).Keys k).Args a).Build.cs = t ++ k ++ a := by
  have h : (poolGet (runPool [] ops)).1 = [] :=
    poolGet_empty _ (pool_all_empty ops [] (by intro cs hcs; simp at hcs))
  simp [Builder.Arbitrary, Arbitrary.Keys, Arbitrary.Args, Arbitrary.Build, h]

/-- C10: `DedicatedSingleClient.DoMulti` with an empty command list
returns `nil` immediately: nothing is sent on the dedicated wire, no
command slice is recycled, and the client state is unchanged. -/
theorem spec_c10_domulti_empty_noop (c : DedicatedSingleClient) :
    c.DoMulti [] = (none, c) := rfl

/-- C4: after `FLUSHALL` (server keyspace emptied, flush-driven
null-payload invalidation flushing the client cache), the next
`DoCache(GET k, ttl)` for every key `k` returns a null reply with
`cache_hit=false`; no stale cached value is served. -/
theorem spec_c4_flushall_invalidates (st : FlushSt) (k : Nat) :
    (doCacheGet (doFlushall st) k).1 = (none, false) := rfl

/-- Each `DoCache` call is counted exactly once, as a miss or as a
hit. -/
theorem runCC_miss_hit (ks : List Nat) (st : CacheCount) :
    (ks.foldl doCacheCount st).miss + (ks.foldl doCacheCount st).hit
      = st.miss + st.hit + ks.length := by
  induction ks generalizing st with
  | nil => simp
  | cons k ks ih =>
    simp only [List.foldl_cons, List.length_cons]
    rw [ih]
    by_cases h : k ∈ st.cache <;> simp [doCacheCount, h] <;> omega

/-- The cached keys after a run are the initially cached keys plus the
requested ones. -/
theorem runCC_cache_mem (ks : List Nat) (st : CacheCount) (x : Nat) :
    x ∈ (ks.foldl doCacheCount st).cache ↔ x ∈ st.cache ∨ x ∈ ks := by
  induction ks generalizing st with
  | nil => simp
  | cons k ks ih =>
    simp only [List.foldl_cons]
    rw [ih]
    by_cases h : k ∈ st.cache
    · simp only [doCacheCount, h, if_pos, List.mem_cons]
      constructor
      · rintro (hx | hx)
        · exact Or.inl hx
        · exact Or.inr (Or.inr hx)
      · rintro (hx | rfl | hx)
        · exact Or.inl hx
        · exact Or.inl h
        · exact Or.inr hx
    · simp only [doCacheCount, h, if_neg, if_false, List.mem_cons]
      constructor
      · rintro ((rfl | hx) | hx)
        · exact Or.inr (Or.inl rfl)
        · exact Or.inl hx
        · exact Or.inr (Or.inr hx)
      · rintro (hx | rfl | hx)
        · exact Or.inl (Or.inr hx)
        · exact Or.inl (Or.inl rfl)
        · exact Or.inr hx

/-- The cached-key list never acquires duplicates: only missing keys
are inserted. -/
theorem runCC_nodup (ks : List Nat) (st : CacheCount) (h : st.cache.Nodup) :
    (ks.foldl doCacheCount st).cache.Nodup := by
  induction ks generalizing st with
  | nil => simpa
  | cons k ks ih =>
    simp only [List.foldl_cons]
    by_cases hk : k ∈ st.cache
    · exact ih _ (by simpa [doCacheCount, hk] using h)
    · exact ih _ (by simp [doCacheCount, hk, List.nodup_cons, h])

/-- The miss counter grows exactly as the cached-key list does. -/
theorem runCC_miss_len (ks : List Nat) (st : CacheCount) :
    (ks.foldl doCacheCount st).miss + st.cache.length
      = st.miss + (ks.foldl doCacheCount st).cache.length := by
  induction ks generalizing st with
  | nil => simp
  | cons k ks ih =>
    simp only [List.foldl_cons]
    by_cases hk : k ∈ st.cache
    · have h2 := ih (doCacheCount st k)
      simpa [doCacheCount, hk] using h2
    · have h2 := ih (doCacheCount st k)
      simp only [doCacheCount, hk, if_neg, if_false, List.length_cons] at h2 ⊢
      omega

/-- C1: with all 100 keys of `[0, 100)` previously written, a run of
10000 `DoCache(GET k, 1m)` calls whose keys lie in `[0, 100)` and
cover all of `[0, 100)`, with no intervening writes, produces exactly
100 `cache_hit=false` responses and exactly 9900 `cache_hit=true`
responses. -/
theorem spec_c1_cache_hit_ratio (ks : List Nat)
    (hlen : ks.length = 10000)
    (hlt : ∀ k ∈ ks, k < 100)
    (hcov : ∀ j, j < 100 → j ∈ ks) :
    (runCacheCount ks).miss = 100 ∧ (runCacheCount ks).hit = 9900 := by
  unfold runCacheCount
  have hmem : ∀ x, x ∈ (ks.foldl doCacheCount ⟨[], 0, 0⟩).cache ↔ x ∈ ks := by
    intro x
    have h := runCC_cache_mem ks ⟨[], 0, 0⟩ x
    simpa using h
  have hnodup : (ks.foldl doCacheCount ⟨[], 0, 0⟩).cache.Nodup :=
    runCC_nodup ks ⟨[], 0, 0⟩ (by simp)
  have hfin : (ks.foldl doCacheCount ⟨[], 0, 0⟩).cache.toFinset = Finset.range 100 := by
    ext x
    simp only [List.mem_toFinset, hmem, Finset.mem_range]
    exact ⟨fun hx => hlt x hx, fun hx => hcov x hx⟩
  have hcard : (ks.foldl doCacheCount ⟨[], 0, 0⟩).cache.length = 100 := by
    have h2 := List.toFinset_card_of_nodup hnodup
    rw [hfin] at h2
    simpa using h2.symm
  have h3 := runCC_miss_len ks ⟨[], 0, 0⟩
  have h4 := runCC_miss_hit ks ⟨[], 0, 0⟩
  simp only [List.length_nil, Nat.add_zero, Nat.zero_add] at h3 h4
  constructor
  · omega
  · omega

/-- Witness for C1 at the concrete request sequence
`[0,…,99] ++ 9900 × [0]`. -/
theorem spec_c1_cache_hit_ratio_witness :
    (runCacheCount (List.range 100 ++ List.replicate 9900 0)).miss = 100 ∧
      (runCacheCount (List.range 100 ++ List.replicate 9900 0)).hit = 9900 :=
  spec_c1_cache_hit_ratio _
    (by
      rw [List.length_append, List.length_range, List.length_replicate])
    (by
      intro k hk
      rcases List.mem_append.1 hk with h | h
      · exact List.mem_range.1 h
      · have := List.eq_of_mem_replicate h
        omega)
    (by
      intro j hj
      exact List.mem_append.2 (Or.inl (List.mem_range.2 hj)))

/-- Every cache event preserves the single-flight coupling between the
entry table and the outstanding-request counters. -/
theorem stepCacheSF_inv (st : CacheSF) (ev : CEvent) (h : InvSF st) :
    InvSF (stepCacheSF st ev) := by
  intro k f
  cases ev with
  | request k0 f0 =>
    simp only [stepCacheSF]
    cases hE : st.entries k0 f0 with
    | some e => exact h k f
    | none =>
      by_cases hkf : k = k0 ∧ f = f0
      · obtain ⟨rfl, rfl⟩ := hkf
        simp only [and_self, if_true, if_pos]
        rw [h k f, hE]
      · simp only [if_neg hkf]
        exact h k f
  | reply k0 f0 =>
    simp only [stepCacheSF]
    cases hE : st.entries k0 f0 with
    | none => exact h k f
    | some e =>
      cases e with
      | ready => exact h k f
      | pending inv =>
        by_cases hkf : k = k0 ∧ f = f0
        · obtain ⟨rfl, rfl⟩ := hkf
          simp only [and_self, if_true, if_pos]
          rw [h k f, hE]
          cases inv <;> simp
        · simp only [if_neg hkf]
          exact h k f
  | invalidate k0 =>
    simp only [stepCacheSF]
    by_cases hk : k = k0
    · subst hk
      simp only [if_pos rfl]
      rw [h k f]
      cases hE : st.entries k f with
      | none => simp
      | some e => cases e <;> simp
    · simp only [if_neg hk]
      exact h k f
  | invalidateAll =>
    simp only [stepCacheSF]
    rw [h k f]
    cases hE : st.entries k f with
    | none => simp
    | some e => cases e <;> simp
  | expire k0 f0 =>
    simp only [stepCacheSF]
    cases hE : st.entries k0 f0 with
    | none => exact h k f
    | some e =>
      cases e with
      | pending inv => exact h k f
      | ready =>
        by_cases hkf : k = k0 ∧ f = f0
        · obtain ⟨rfl, rfl⟩ := hkf
          simp only [and_self, if_true, if_pos]
          rw [h k f, hE]
        · simp only [if_neg hkf]
          exact h k f

/-- The single-flight coupling holds in every reachable cache state. -/
theorem runCacheSF_inv (tr : List CEvent) : InvSF (runCacheSF tr) := by
  suffices h : ∀ st, InvSF st → InvSF (tr.foldl stepCacheSF st) by
    refine h initCacheSF ?_
    intro k f
    rfl
  induction tr with
  | nil => exact fun st h => h
  | cons e rest ih => exact fun st h => ih (stepCacheSF st e) (stepCacheSF_inv st e h)

/-- C2: on any wire, after any trace of concurrent `DoCache` requests,
server replies, invalidations, flushes, and expiries, the number of
outstanding server requests for any `(cache-key, fingerprint)` pair is
at most 1. -/
theorem spec_c2_single_flight (tr : List CEvent) (k f : Nat) :
    (runCacheSF tr).inflight k f ≤ 1 := by
  rw [runCacheSF_inv tr k f]
  split <;> omega

/-- Pipeline invariant: completed entries followed by in-flight entries
enumerate all submitted commands in submission order. -/
theorem runPipe_inv (tr : List PEvent) :
    (runPipe tr).done ++ (runPipe tr).queue = List.range (runPipe tr).nextId := by
  suffices h : ∀ st : PipeSt, st.done ++ st.queue = List.range st.nextId →
      (tr.foldl stepPipe st).done ++ (tr.foldl stepPipe st).queue
        = List.range (tr.foldl stepPipe st).nextId by
    exact h ⟨0, [], []⟩ (by simp)
  induction tr with
  | nil => exact fun st h => h
  | cons e rest ih =>
    intro st h
    simp only [List.foldl_cons]
    refine ih (stepPipe st e) ?_
    cases e with
    | submit =>
      simp only [stepPipe]
      rw [← List.append_assoc, h, List.range_succ]
    | complete =>
      cases hq : st.queue with
      | nil =>
        simp only [stepPipe, hq]
        rw [hq] at h
        simpa using h
      | cons x t =>
        simp only [stepPipe, hq]
        rw [hq] at h
        rw [List.append_assoc]
        simpa using h

/-- The completion log of a reachable pipeline state is an initial
segment of the submission numbering, in order. -/
theorem runPipe_done_eq_range (tr : List PEvent) :
    (runPipe tr).done = List.range (runPipe tr).done.length := by
  have h := runPipe_inv tr
  have h1 : (runPipe tr).done
      = ((runPipe tr).done ++ (runPipe tr).queue).take (runPipe tr).done.length :=
    (List.take_left _ _).symm
  rw [h, List.take_range] at h1
  have hle : (runPipe tr).done.length ≤ (runPipe tr).nextId := by
    have h2 := congrArg List.length h
    simp only [List.length_append, List.length_range] at h2
    omega
  rwa [min_eq_left hle] at h1

/-- The position of `i` in `[0, …, n-1]` is `i`. -/
theorem indexOf_range (i n : Nat) (h : i < n) : (List.range n).indexOf i = i := by
  induction n with
  | zero => omega
  | succ n ih =>
    rw [List.range_succ]
    by_cases hi : i < n
    · rw [List.indexOf_append_of_mem (List.mem_range.2 hi)]
      exact ih hi
    · have hi' : i = n := by omega
      subst hi'
      rw [List.indexOf_append_of_not_mem (by simp)]
      simp

/-- C3: on any wire, for any trace of submits and completions, if
command `a` was submitted before command `b` and `b`'s completion has
been delivered, then `a`'s completion was delivered before `b`'s:
per-wire completion order equals submission order. -/
theorem spec_c3_fifo_completion_order (tr : List PEvent) (a b : Nat)
    (hab : a < b) (hb : b ∈ (runPipe tr).done) :
    a ∈ (runPipe tr).done ∧
      (runPipe tr).done.indexOf a < (runPipe tr).done.indexOf b := by
  have hdone := runPipe_done_eq_range tr
  rw [hdone] at hb
  have hbL : b < (runPipe tr).done.length := List.mem_range.1 hb
  have haL : a < (runPipe tr).done.length := lt_trans hab hbL
  constructor
  · rw [hdone]
    exact List.mem_range.2 haL
  · rw [hdone, indexOf_range a _ haL, indexOf_range b _ hbL]
    exact hab

/-- Witness for C3: two submits then two completions; command 0
completes before command 1. -/
theorem spec_c3_fifo_completion_order_witness :
    0 < 1 ∧
      1 ∈ (runPipe [PEvent.submit, PEvent.submit, PEvent.complete, PEvent.complete]).done ∧
      (runPipe [PEvent.submit, PEvent.submit, PEvent.complete, PEvent.complete]).done.indexOf 0
        < (runPipe [PEvent.submit, PEvent.submit, PEvent.complete, PEvent.complete]).done.indexOf 1 := by
  have h := spec_c3_fifo_completion_order
    [PEvent.submit, PEvent.submit, PEvent.complete, PEvent.complete] 0 1
    (by decide) (by decide)
  exact ⟨by decide, by decide, h.2⟩

/-- Key slots proper lie below the sentinel range. -/
theorem slot_lt (k : String) : slot k < 16384 :=
  Nat.mod_lt _ (by omega)

/-- The cross-slot marker is absorbing under `check`. -/
theorem checkFold_cross_absorb (keys : List String) :
    keys.foldl (fun s k => check s (slot k)) crossSlot = crossSlot := by
  induction keys with
  | nil => rfl
  | cons k ks ih =>
    have h1 : check crossSlot (slot k) = crossSlot := by
      unfold check
      rw [if_neg]
      push_neg
      refine ⟨by unfold crossSlot initSlot; omega, ?_⟩
      have := slot_lt k
      unfold crossSlot
      omega
    simpa [h1] using ih

/-- Folding `check` from an accumulated slot over keys containing one
hashing elsewhere yields the cross-slot marker. -/
theorem checkFold_ne_cross (keys : List String) (s : Nat) (hs : s < 16384)
    (hex : ∃ k ∈ keys, slot k ≠ s) :
    keys.foldl (fun a k => check a (slot k)) s = crossSlot := by
  induction keys generalizing s with
  | nil =>
    rcases hex with ⟨k, hk, _⟩
    simp at hk
  | cons k0 ks ih =>
    simp only [List.foldl_cons]
    by_cases h0 : slot k0 = s
    · rw [h0]
      have hcss : check s s = s := by unfold check; simp
      rw [hcss]
      refine ih s hs ?_
      rcases hex with ⟨k, hk, hne⟩
      rcases List.mem_cons.1 hk with rfl | hk'
      · exact absurd h0 hne
      · exact ⟨k, hk', hne⟩
    · have hc : check s (slot k0) = crossSlot := by
        unfold check
        rw [if_neg]
        push_neg
        exact ⟨by unfold initSlot; omega, fun h => h0 h.symm⟩
      rw [hc]
      exact checkFold_cross_absorb ks

/-- Folding `check` from the initial sentinel over keys hashing to two
different slots yields the cross-slot marker. -/
theorem checkFold_init_cross (keys : List String)
    (hex : ∃ k1 ∈ keys, ∃ k2 ∈ keys, slot k1 ≠ slot k2) :
    keys.foldl (fun a k => check a (slot k)) initSlot = crossSlot := by
  cases keys with
  | nil =>
    rcases hex with ⟨k, hk, _⟩
    simp at hk
  | cons k0 ks =>
    simp only [List.foldl_cons]
    have h0 : check initSlot (slot k0) = slot k0 := by unfold check; simp
    rw [h0]
    refine checkFold_ne_cross ks (slot k0) (slot_lt k0) ?_
    rcases hex with ⟨k1, hk1, k2, hk2, hne⟩
    by_cases h1 : slot k1 = slot k0
    · have h2 : slot k2 ≠ slot k0 := fun h => hne (h1.trans h.symm)
      rcases List.mem_cons.1 hk2 with rfl | hk2'
      · exact absurd rfl h2
      · exact ⟨k2, hk2', h2⟩
    · rcases List.mem_cons.1 hk1 with rfl | hk1'
      · exact absurd rfl h1
      · exact ⟨k1, hk1', h1⟩

/-- C5: a multi-key command built with `Keys` on a slot-tracking
builder (not marked `NoSlot`, i.e. not explicitly allowed to mix
slots) whose declared keys hash to two different cluster slots
accumulates the cross-slot marker, and dispatch rejects it with
`ErrCrossSlot` without sending or retrying anything. -/
theorem spec_c5_cross_slot_rejected (p : List (List String)) (b : Builder)
    (t keys : List String) (hb : b.ks = initSlot)
    (hex : ∃ k1 ∈ keys, ∃ k2 ∈ keys, slot k1 ≠ slot k2) :
    clusterDispatch (((b.Arbitrary p t).1.Keys keys).Build)
      = ([], some RErr.crossSlot) := by
  have hks : ((b.Arbitrary p t).1.Keys keys).ks = crossSlot := by
    simp only [Builder.Arbitrary, Arbitrary.Keys, hb]
    rw [if_pos (by unfold initSlot noSlot; omega)]
    exact checkFold_init_cross keys hex
  simp [clusterDispatch, Arbitrary.Build, hks]

/-- Witness for C5: keys `a` and `b` hash to different slots, so
`GET a b` on a slot-tracking builder is rejected with
`ErrCrossSlot`. -/
theorem spec_c5_cross_slot_rejected_witness :
    clusterDispatch ((((NewBuilder initSlot).Arbitrary [] ["GET"]).1.Keys ["a", "b"]).Build)
      = ([], some RErr.crossSlot) :=
  spec_c5_cross_slot_rejected [] (NewBuilder initSlot) ["GET"] ["a", "b"] rfl
    ⟨"a", by simp, "b", by simp, by decide⟩

/-- C6: a `Receive` call that observes any number of pub/sub message
frames and then the client being closed terminates with `ErrClosing`
and no other error, whatever frames follow. -/
theorem spec_c6_receive_err_closing (pre post : List REvent) (out : List String)
    (hpre : ∀ e ∈ pre, ∃ m, e = REvent.msg m) :
    (receiveRun (pre ++ REvent.close :: post) out).2 = some RErr.closing := by
  induction pre generalizing out with
  | nil => rfl
  | cons e rest ih =>
    rcases hpre e (List.mem_cons_self e rest) with ⟨m, rfl⟩
    simp only [List.cons_append, receiveRun]
    exact ih (out ++ [m]) (fun e' he' => hpre e' (List.mem_cons_of_mem _ he'))

/-- Witness for C6: one delivered message, then `Close`. -/
theorem spec_c6_receive_err_closing_witness :
    (receiveRun [REvent.msg "m0", REvent.close] []).2 = some RErr.closing :=
  spec_c6_receive_err_closing [REvent.msg "m0"] [] []
    (by
      intro e he
      simp only [List.mem_singleton] at he
      exact ⟨"m0", he⟩)

/-- The fold of `min` over an ascending range starting at or above the
accumulator returns the accumulator. -/
theorem foldl_min_range' (n t s : Nat) (h : s ≤ t) :
    (List.range' t n).foldl min s = s := by
  induction n generalizing t s with
  | zero => rfl
  | succ n ih =>
    rw [List.range'_succ]
    simp only [List.foldl_cons]
    rw [min_eq_left h]
    exact ih (t + 1) s (by omega)

/-- The minimum of a nonempty ascending range is its start. -/
theorem min?_range'_succ (p n : Nat) :
    (List.range' p (n + 1)).min? = some p := by
  rw [List.range'_succ]
  show some ((List.range' (p + 1) n).foldl min p) = some p
  rw [foldl_min_range' n (p + 1) p (by omega)]

/-- Every scenario step preserves the blocking-zset invariant. -/
theorem stepZ_inv (key : String) (st : ZSt) (e : ZEv) (h : ZInv key st) :
    ZInv key (stepZ key st e) := by
  cases e with
  | add =>
    intro hok
    simp only [stepZ] at hok ⊢
    rcases h hok with ⟨h1, h2, h3⟩
    refine ⟨by omega, ?_, h3⟩
    rw [h2]
    have hr : List.range' st.pops (st.adds - st.pops) ++ [st.pops + 1 * (st.adds - st.pops)]
        = List.range' st.pops (st.adds - st.pops + 1) := (List.range'_concat _ _).symm
    have he : st.pops + 1 * (st.adds - st.pops) = st.adds := by omega
    rw [he] at hr
    rw [hr]
    congr 1
    omega
  | pop =>
    intro hok
    by_cases hok0 : st.ok = true
    · rcases h hok0 with ⟨h1, h2, h3⟩
      by_cases hpa : st.pops = st.adds
      · -- empty set: the pop marks the run invalid, contradicting hok
        exfalso
        have hitems : st.items = [] := by
          rw [h2, hpa]
          simp
        simp only [stepZ, hitems, List.min?] at hok
        exact absurd hok (by simp)
      · obtain ⟨n, hn⟩ : ∃ n, st.adds - st.pops = n + 1 :=
          ⟨st.adds - st.pops - 1, by omega⟩
        rw [hn] at h2
        have hmin : st.items.min? = some st.pops := by
          rw [h2]
          exact min?_range'_succ _ _
        simp only [stepZ, hmin]
        have herase : st.items.erase st.pops = List.range' (st.pops + 1) n := by
          rw [h2, List.range'_succ]
          simp only [List.erase_cons_head]
        refine ⟨by omega, ?_, ?_⟩
        · have hc : st.adds - (st.pops + 1) = n := by omega
          rw [herase, hc]
        · rw [h3, List.range_succ, List.map_append]
          simp
    · -- an earlier pop already failed; `ok` cannot have become true
      exfalso
      cases e' : st.items.min? with
      | none => simp only [stepZ, e'] at hok; exact absurd hok (by simp)
      | some m => simp only [stepZ, e'] at hok; exact hok0 hok

/-- The blocking-zset invariant holds after any valid interleaving. -/
theorem runZ_inv (key : String) (sched : List ZEv) : ZInv key (runZ key sched) := by
  suffices h : ∀ st, ZInv key st → ZInv key (sched.foldl (stepZ key) st) by
    refine h ⟨0, 0, [], [], true⟩ ?_
    intro _
    exact ⟨Nat.le_refl 0, rfl, rfl⟩
  induction sched with
  | nil => exact fun st h => h
  | cons e rest ih => exact fun st h => ih (stepZ key st e) (stepZ_inv key st e h)

/-- A run that ended with `ok` false never recovers. -/
theorem runZ_ok_false (key : String) (sched : List ZEv) (st : ZSt) (h : st.ok = false) :
    (sched.foldl (stepZ key) st).ok = false := by
  induction sched generalizing st with
  | nil => exact h
  | cons e rest ih =>
    refine ih (stepZ key st e) ?_
    cases e with
    | add => simpa [stepZ]
    | pop =>
      cases e' : st.items.min? with
      | none => simp [stepZ, e']
      | some m => simpa [stepZ, e']

/-- In a valid run, every producer step and every consumer step is
counted: the final `adds` and `pops` are the event counts of the
schedule. -/
theorem runZ_counts (key : String) (sched : List ZEv) (st : ZSt)
    (hok : (sched.foldl (stepZ key) st).ok = true) :
    (sched.foldl (stepZ key) st).adds = st.adds + countAdds sched ∧
      (sched.foldl (stepZ key) st).pops = st.pops + countPops sched := by
  induction sched generalizing st with
  | nil => simp [countAdds, countPops]
  | cons e rest ih =>
    simp only [List.foldl_cons] at hok ⊢
    cases e with
    | add =>
      rcases ih (stepZ key st ZEv.add) hok with ⟨h1, h2⟩
      simp only [stepZ] at h1 h2 ⊢
      have hca : countAdds (ZEv.add :: rest) = countAdds rest + 1 := by
        simp [countAdds, List.filter_cons]
      have hcp : countPops (ZEv.add :: rest) = countPops rest := by
        simp [countPops, List.filter_cons]
      rw [hca, hcp]
      omega
    | pop =>
      cases e' : st.items.min? with
      | none =>
        exfalso
        have hf : (stepZ key st ZEv.pop).ok = false := by simp [stepZ, e']
        have h5 := runZ_ok_false key rest _ hf
        rw [h5] at hok
        exact absurd hok (by simp)
      | some m =>
        rcases ih (stepZ key st ZEv.pop) hok with ⟨h1, h2⟩
        simp only [stepZ, e'] at h1 h2 ⊢
        have hca : countAdds (ZEv.pop :: rest) = countAdds rest := by
          simp [countAdds, List.filter_cons]
        have hcp : countPops (ZEv.pop :: rest) = countPops rest + 1 := by
          simp [countPops, List.filter_cons]
        rw [hca, hcp]
        omega

/-- C7: in the blocking scenario, for any interleaving of 2000 `ZADD
key i i` producer steps with 2000 `BZPOPMIN key 0` consumer steps in
which no pop hits an empty set (which `BZPOPMIN` blocking guarantees),
the `i`-th pop returns the array `[key, "i", "i"]`, for `i = 0, …,
1999` in ascending order. -/
theorem spec_c7_blocking_zpop (key : String) (sched : List ZEv)
    (hok : (runZ key sched).ok = true)
    (_ha : countAdds sched = 2000) (hp : countPops sched = 2000) :
    (runZ key sched).out
      = (List.range 2000).map (fun i => (key, Nat.repr i, Nat.repr i)) := by
  rcases runZ_inv key sched hok with ⟨_, _, hout⟩
  have hcounts := runZ_counts key sched ⟨0, 0, [], [], true⟩ hok
  rw [hout]
  have hpops : (runZ key sched).pops = 2000 := by
    rcases hcounts with ⟨_, h2⟩
    simpa [runZ, hp] using h2
  rw [hpops]

/-- Producer-step count distributes over schedule concatenation. -/
theorem countAdds_append (l1 l2 : List ZEv) :
    countAdds (l1 ++ l2) = countAdds l1 + countAdds l2 := by
  simp [countAdds, List.filter_append]

/-- Consumer-step count distributes over schedule concatenation. -/
theorem countPops_append (l1 l2 : List ZEv) :
    countPops (l1 ++ l2) = countPops l1 + countPops l2 := by
  simp [countPops, List.filter_append]

/-- The alternating schedule has `n` producer steps. -/
theorem countAdds_alt (n : Nat) :
    countAdds ((List.replicate n [ZEv.add, ZEv.pop]).flatten) = n := by
  induction n with
  | zero => rfl
  | succ n ih =>
    rw [List.replicate_succ, List.flatten_cons, countAdds_append, ih]
    have h1 : countAdds [ZEv.add, ZEv.pop] = 1 := rfl
    omega

/-- The alternating schedule has `n` consumer steps. -/
theorem countPops_alt (n : Nat) :
    countPops ((List.replicate n [ZEv.add, ZEv.pop]).flatten) = n := by
  induction n with
  | zero => rfl
  | succ n ih =>
    rw [List.replicate_succ, List.flatten_cons, countPops_append, ih]
    have h1 : countPops [ZEv.add, ZEv.pop] = 1 := rfl
    omega

/-- Running the alternating schedule from an empty set pops every score
in order and never blocks on an empty set. -/
theorem runZ_alt (key : String) (n : Nat) : ∀ (a : Nat) (out : List (String × String × String)),
    (List.replicate n [ZEv.add, ZEv.pop]).flatten.foldl (stepZ key) ⟨a, a, [], out, true⟩
      = ⟨a + n, a + n, [],
         out ++ (List.range' a n).map (fun i => (key, Nat.repr i, Nat.repr i)), true⟩ := by
  induction n with
  | zero => intro a out; simp
  | succ n ih =>
    intro a out
    rw [List.replicate_succ, List.flatten_cons, List.foldl_append]
    have h1 : stepZ key (⟨a, a, [], out, true⟩ : ZSt) ZEv.add = ⟨a + 1, a, [a], out, true⟩ := by
      simp [stepZ]
    have hmin : ([a] : List Nat).min? = some a := rfl
    have h2 : stepZ key (⟨a + 1, a, [a], out, true⟩ : ZSt) ZEv.pop
        = ⟨a + 1, a + 1, [], out ++ [(key, Nat.repr a, Nat.repr a)], true⟩ := by
      simp only [stepZ, hmin]
      simp [List.erase_cons_head]
    have hstep : ([ZEv.add, ZEv.pop]).foldl (stepZ key) (⟨a, a, [], out, true⟩ : ZSt)
        = ⟨a + 1, a + 1, [], out ++ [(key, Nat.repr a, Nat.repr a)], true⟩ := by
      simp only [List.foldl_cons, List.foldl_nil, h1, h2]
    have hout : out ++ (List.range' a (n + 1)).map (fun i => (key, Nat.repr i, Nat.repr i))
        = (out ++ [(key, Nat.repr a, Nat.repr a)])
            ++ (List.range' (a + 1) n).map (fun i => (key, Nat.repr i, Nat.repr i)) := by
      rw [List.range'_succ, List.map_cons]
      simp
    rw [hstep, ih (a + 1) (out ++ [(key, Nat.repr a, Nat.repr a)]), hout,
      show a + 1 + n = a + (n + 1) by omega]

/-- Witness for C7: the strictly alternating interleaving of 2000 adds
and 2000 pops. -/
theorem spec_c7_blocking_zpop_witness :
    (runZ "bz_pop_test" ((List.replicate 2000 [ZEv.add, ZEv.pop]).flatten)).ok = true ∧
      (runZ "bz_pop_test" ((List.replicate 2000 [ZEv.add, ZEv.pop]).flatten)).out
        = (List.range 2000).map (fun i => ("bz_pop_test", Nat.repr i, Nat.repr i)) :=
  ⟨by
     show ((List.replicate 2000 [ZEv.add, ZEv.pop]).flatten.foldl (stepZ "bz_pop_test")
       ⟨0, 0, [], [], true⟩).ok = true
     rw [runZ_alt],
   spec_c7_blocking_zpop "bz_pop_test" _
    (by
      show ((List.replicate 2000 [ZEv.add, ZEv.pop]).flatten.foldl (stepZ "bz_pop_test")
        ⟨0, 0, [], [], true⟩).ok = true
      rw [runZ_alt])
    (countAdds_alt 2000) (countPops_alt 2000)⟩

end Rueidis
